import Mathlib

/-!
Verification of the cryptographic core (HMAC, HKDF, key derivation, nonce
construction, cipher facade) of a multi-device sync client.

Byte sequences (JS `Uint8Array`) are modelled as `List Nat`; JS strings as
`List Char`. The external primitive library (tweetnacl) is out of scope for
the repository, so its members are parameters of the embedded functions:
`H` models `nacl.hash` (SHA-512, a 64-byte-output hash), `kp` models
`nacl.sign.keyPair.fromSeed`, `sb` models `nacl.secretbox` and `opn` models
`nacl.secretbox.open`. The two external effects of the nonce builder
(4 random bytes and the current time in ms) are passed as explicit
arguments `rnd` and `time`. JS exceptions are modelled with `Except Err`;
the spec's error taxonomy maps the thrown `Error`s of the source to
`inputTypeError` and `rangeError`.
-/

/-- Error taxonomy of the spec: InputTypeError for wrong byte-sequence
type or length, RangeError for out-of-range numeric arguments. -/
inductive Err where
  | inputTypeError : Err
  | rangeError : Err
deriving Repr, DecidableEq

/-- Block size of the SHA-512-based HMAC (`BLOCK_SIZE` in the source). -/
def BLOCK_SIZE : Nat := 128

/-- Output size of the hash primitive (`HASH_SIZE` in the source). -/
def HASH_SIZE : Nat := 64

/-- The fixed 64-byte protocol salt (`HKDF_SALT` in the source). -/
def HKDF_SALT : List Nat := [72, 203, 156, 43, 64, 229, 225, 127, 214, 158, 50, 29, 130, 186, 182, 207, 6, 108, 47, 254, 245, 71, 198, 109, 44, 108, 32, 193, 221, 126, 119, 143, 112, 113, 87, 184, 239, 231, 230, 234, 28, 135, 54, 42, 9, 243, 39, 30, 179, 147, 194, 211, 212, 239, 225, 52, 192, 219, 145, 40, 95, 19, 142, 98]

/-- Builds the 128-byte padded key of the source's hmac: the two loops
`buf[i] = padByte` for `i < BLOCK_SIZE` followed by `buf[i] ^= key[i]`
for `i < key.length` leave `padByte ^^^ key[i]` in the first
`key.length` slots and `padByte` in the rest. -/
def xorPadKey (padByte : Nat) (key : List Nat) : List Nat :=
  key.map (fun b => padByte ^^^ b) ++ List.replicate (BLOCK_SIZE - key.length) padByte

/-- The source's `hmac(message, key)`: keys longer than the block size are
first hashed, then the result is
`H(opad ++ H(ipad ++ message))` with `ipad`/`opad` built by `xorPadKey`. -/
def hmac (H : List Nat → List Nat) (message key : List Nat) : List Nat :=
  let key := if key.length > BLOCK_SIZE then H key else key
  let innerHash := H (xorPadKey 0x36 key ++ message)
  H (xorPadKey 0x5c key ++ innerHash)

/-- The `t[i]` sequence of the source's `getHKDF` expand loop:
`t[0] = []`, `t[i] = hmac(t[i-1] ++ info ++ [i], prk)`. -/
def hkdfT (H : List Nat → List Nat) (info prk : List Nat) : Nat → List Nat
  | 0 => []
  | i + 1 => hmac H (hkdfT H info prk i ++ info ++ [i + 1]) prk

/-- The `okm` accumulator of the source's `getHKDF` after the first `n`
iterations of the expand loop: the concatenation `t[1] ++ ... ++ t[n]`. -/
def hkdfOkm (H : List Nat → List Nat) (info prk : List Nat) : Nat → List Nat
  | 0 => []
  | i + 1 => hkdfOkm H info prk i ++ hkdfT H info prk (i + 1)

/-- The source's `getHKDF(ikm, info, extractLen, salt)`. `extractLen` is an
`Int` because the source receives an arbitrary JS number and checks its
range; `salt` is an `Option` because the source substitutes a zero-filled
64-byte salt when none (no `Uint8Array`) is supplied. -/
def getHKDF (H : List Nat → List Nat) (ikm info : List Nat) (extractLen : Int)
    (salt : Option (List Nat)) : Except Err (List Nat) :=
  if extractLen < 0 ∨ extractLen > (HASH_SIZE : Int) * 255 then
    .error .rangeError
  else
    let salt := salt.getD (List.replicate HASH_SIZE 0)
    let prk := hmac H ikm salt
    let n := (extractLen.toNat + HASH_SIZE - 1) / HASH_SIZE
    .ok ((hkdfOkm H info prk n).take extractLen.toNat)

/-- Seed length of `nacl.lowlevel.crypto_sign_SEEDBYTES` (Ed25519). -/
def crypto_sign_SEEDBYTES : Nat := 32

/-- Key length of `nacl.secretbox.keyLength` (XSalsa20-Poly1305). -/
def secretbox_keyLength : Nat := 32

/-- Nonce length of `nacl.secretbox.nonceLength`. -/
def secretbox_nonceLength : Nat := 24

/-- Lowercase hex digit of a value below 16, as produced by JS
`toString(16)`. -/
def hexDigitChar (n : Nat) : Char :=
  if n < 10 then Char.ofNat (48 + n) else Char.ofNat (87 + n)

/-- Two-character lowercase hex rendering of one byte, as produced by the
fingerprint loop of the source's `deriveKeys` (`byte.toString(16)`
left-padded with `0` to two characters). -/
def byteToHex (b : Nat) : List Char :=
  [hexDigitChar (b / 16 % 16), hexDigitChar (b % 16)]

/-- Result record of the source's `deriveKeys`. -/
structure DerivedKeyBundle where
  publicKey : List Nat
  secretKey : List Nat
  fingerprint : List Char
  secretboxKey : List Nat
deriving Repr, DecidableEq

/-- The source's `deriveKeys(seed)`: HKDF with `info = [0]` gives the
Ed25519 signing seed handed to the external keypair derivation `kp`, the
fingerprint is the public key in lowercase hex, and HKDF with
`info = [1]` gives the secretbox key. The source checks only that `seed`
is a `Uint8Array` (a non-byte-sequence input, outside this embedding);
it performs no length check. -/
def deriveKeys (H : List Nat → List Nat) (kp : List Nat → List Nat × List Nat)
    (seed : List Nat) : Except Err DerivedKeyBundle := do
  let output ← getHKDF H seed [0] (crypto_sign_SEEDBYTES : Int) (some HKDF_SALT)
  let keys := kp output
  let fingerprint := (keys.1.map byteToHex).flatten
  let secretboxKey ← getHKDF H seed [1] (secretbox_keyLength : Int) (some HKDF_SALT)
  return ⟨keys.1, keys.2, fingerprint, secretboxKey⟩

/-- Big-endian base-16 digits of `n`, as produced by JS `n.toString(16)`
(minimal, so `0` renders as the single digit `0`). The first argument is
recursion fuel; `fuel ≥ number of digits - 1` suffices, and `hexDigits`
below passes `n` itself, which is always enough. -/
def hexDigitsAux (fuel n : Nat) : List Nat :=
  match fuel with
  | 0 => [n % 16]
  | fuel + 1 => if n < 16 then [n] else hexDigitsAux fuel (n / 16) ++ [n % 16]

/-- Big-endian base-16 digits of `n` (the characters of JS
`n.toString(16)`, each as its numeric value). -/
def hexDigits (n : Nat) : List Nat := hexDigitsAux n n

/-- The source's `getNonce(deviceId)`, with the two external reads made
explicit: `rnd` is the result of `nacl.randomBytes(4)` and `time` the
result of `(new Date()).getTime()`. The hex string of the timestamp is
modelled as its digit list, left-padded with zeros while shorter than 12
(`while (hexTime.length < 12)`); byte `5 + i` is
`Number('0x' + hexTime[2i] + hexTime[2i+1])`, read with `getD` from the
first twelve digits exactly as the source indexes the string. -/
def getNonce (deviceId : Int) (rnd : List Nat) (time : Nat) :
    Except Err (List Nat) :=
  if deviceId < 0 ∨ deviceId > 255 then
    .error .rangeError
  else if time > 256 ^ 6 then
    .error .rangeError
  else
    let hexTime := List.replicate (12 - (hexDigits time).length) 0 ++ hexDigits time
    let tsBytes := (List.range 6).map
      (fun i => hexTime.getD (2 * i) 0 * 16 + hexTime.getD (2 * i + 1) 0)
    .ok ([deviceId.toNat] ++ rnd ++ tsBytes ++
      List.replicate (secretbox_nonceLength - 11) 0)

/-- Result record of the source's `encrypt`. -/
structure EncryptedEnvelope where
  nonce : List Nat
  ciphertext : List Nat
deriving Repr, DecidableEq

/-- The source's `encrypt(message, secretboxKey, deviceId)`: builds a nonce
and calls the external secretbox primitive `sb` on
(message, nonce, key). -/
def encrypt (sb : List Nat → List Nat → List Nat → List Nat)
    (message secretboxKey : List Nat) (deviceId : Int) (rnd : List Nat)
    (time : Nat) : Except Err EncryptedEnvelope := do
  let nonce ← getNonce deviceId rnd time
  return ⟨nonce, sb message nonce secretboxKey⟩

/-- The source's `decrypt(ciphertext, nonce, secretboxKey)`: a direct call
to the external `nacl.secretbox.open`, modelled by `opn`, whose failure
sentinel (`false` in tweetnacl) is modelled as `none`. -/
def decrypt (opn : List Nat → List Nat → List Nat → Option (List Nat))
    (ciphertext nonce secretboxKey : List Nat) : Option (List Nat) :=
  opn ciphertext nonce secretboxKey

/-- Follows the spec's words for the HMAC pads: a block of `BLOCK_SIZE`
copies of the pad byte, XORed with the key (positions beyond the key's
length are XORed with zero, i.e. unchanged). -/
def specPad (padByte : Nat) (key : List Nat) : List Nat :=
  (List.range BLOCK_SIZE).map (fun i => padByte ^^^ key.getD i 0)

/-- Follows the spec's words for the HMAC construction: a key longer than
the block size is first reduced by hashing it; the MAC is the hash of the
outer (0x5c) pad followed by the hash of the inner (0x36) pad followed by
the message. -/
def hmacSpec (H : List Nat → List Nat) (message key : List Nat) : List Nat :=
  let key := if key.length > BLOCK_SIZE then H key else key
  H (specPad 0x5c key ++ H (specPad 0x36 key ++ message))

/-- Follows the spec's words for the HKDF expand recurrence:
`T[0] = empty`, `T[i] = HMAC(T[i-1] ++ info ++ [i], PRK)`. -/
def hkdfSpecT (H : List Nat → List Nat) (info prk : List Nat) : Nat → List Nat
  | 0 => []
  | i + 1 => hmac H (hkdfSpecT H info prk i ++ info ++ [i + 1]) prk

/-- Follows the spec's words for HKDF: extract `PRK = HMAC(salt, ikm)`
(HMAC keyed by the salt), then concatenate `T[1..ceil(extractLen/64)]` and
truncate to `extractLen` bytes. -/
def hkdfSpec (H : List Nat → List Nat) (ikm info salt : List Nat)
    (extractLen : Nat) : List Nat :=
  let prk := hmac H ikm salt
  let n := (extractLen + HASH_SIZE - 1) / HASH_SIZE
  (((List.range n).map (fun i => hkdfSpecT H info prk (i + 1))).flatten).take extractLen

/-- Modelled from the spec: the numeric value of one lowercase hex digit,
for decoding the fingerprint (the repository ships no decoder; the spec
says the fingerprint "decodes back to publicKey exactly"). -/
def hexCharVal (c : Char) : Option Nat :=
  if 48 ≤ c.toNat ∧ c.toNat ≤ 57 then some (c.toNat - 48)
  else if 97 ≤ c.toNat ∧ c.toNat ≤ 102 then some (c.toNat - 87)
  else none

/-- Modelled from the spec: hex-string decoding, two lowercase hex digits
per byte, failing on odd length or non-hex characters. -/
def hexDecode : List Char → Option (List Nat)
  | [] => some []
  | [_] => none
  | c1 :: c2 :: rest => do
      let hi ← hexCharVal c1
      let lo ← hexCharVal c2
      let r ← hexDecode rest
      return (hi * 16 + lo) :: r

/-! ### Helper lemmas -/

theorem hexDigitsAux_small (fuel n : Nat) (h : n < 16) : hexDigitsAux fuel n = [n] := by
  cases fuel with
  | zero => simp [hexDigitsAux, Nat.mod_eq_of_lt h]
  | succ fuel => simp [hexDigitsAux, h]

theorem hexDigitsAux_pad : ∀ (k n fuel : Nat), 1 ≤ k → n < 16 ^ k → n < 16 ^ (fuel + 1) →
    List.replicate (k - (hexDigitsAux fuel n).length) 0 ++ hexDigitsAux fuel n =
      (List.range k).map (fun i => n / 16 ^ (k - 1 - i) % 16) := by
  intro k
  induction k with
  | zero => intro n fuel h1 _ _; omega
  | succ k ih =>
    intro n fuel _ hn hfuel
    by_cases hsmall : n < 16
    · rw [hexDigitsAux_small fuel n hsmall, List.range_succ, List.map_append]
      have hzero : (List.range k).map (fun i => n / 16 ^ (k + 1 - 1 - i) % 16) =
          List.replicate k 0 := by
        rw [List.eq_replicate_iff]
        refine ⟨by simp, ?_⟩
        intro b hb
        obtain ⟨i, hi, hib⟩ := List.mem_map.mp hb
        have hik : i < k := List.mem_range.mp hi
        have hpow : n < 16 ^ (k + 1 - 1 - i) := by
          calc n < 16 := hsmall
          _ = 16 ^ 1 := by norm_num
          _ ≤ 16 ^ (k + 1 - 1 - i) := Nat.pow_le_pow_right (by norm_num) (by omega)
        rw [← hib, Nat.div_eq_of_lt hpow]
      rw [hzero]
      simp [Nat.mod_eq_of_lt hsmall]
    · push_neg at hsmall
      have hk1 : 1 ≤ k := by
        by_contra hk0
        have : k = 0 := by omega
        subst this
        simp at hn
        omega
      obtain ⟨fuel, rfl⟩ : ∃ f, fuel = f + 1 := by
        cases fuel with
        | zero => simp at hfuel; omega
        | succ f => exact ⟨f, rfl⟩
      have hstep : hexDigitsAux (fuel + 1) n = hexDigitsAux fuel (n / 16) ++ [n % 16] := by
        simp [hexDigitsAux, Nat.not_lt.mpr hsmall]
      have hdiv : n / 16 < 16 ^ k := by
        rw [Nat.div_lt_iff_lt_mul (by norm_num)]
        calc n < 16 ^ (k + 1) := hn
        _ = 16 ^ k * 16 := by rw [pow_succ]
      have hdivfuel : n / 16 < 16 ^ (fuel + 1) := by
        rw [Nat.div_lt_iff_lt_mul (by norm_num)]
        calc n < 16 ^ (fuel + 1 + 1) := hfuel
        _ = 16 ^ (fuel + 1) * 16 := by rw [pow_succ]
      have hih := ih (n / 16) fuel hk1 hdiv hdivfuel
      rw [hstep]
      have hlen : (k + 1) - ((hexDigitsAux fuel (n / 16)).length + 1) =
          k - (hexDigitsAux fuel (n / 16)).length := by omega
      rw [List.length_append, List.length_singleton, hlen, ← List.append_assoc, hih]
      rw [List.range_succ, List.map_append]
      congr 1
      · apply List.map_congr_left
        intro i hi
        have hik : i < k := List.mem_range.mp hi
        have hexp : k - 1 - i + 1 = k + 1 - 1 - i := by omega
        have he : n / 16 / 16 ^ (k - 1 - i) = n / 16 ^ (k + 1 - 1 - i) := by
          rw [Nat.div_div_eq_div_mul, ← pow_succ', hexp]
        rw [he]
      · simp

theorem hexDigits_pad (k n : Nat) (hk : 1 ≤ k) (hn : n < 16 ^ k) :
    List.replicate (k - (hexDigits n).length) 0 ++ hexDigits n =
      (List.range k).map (fun i => n / 16 ^ (k - 1 - i) % 16) := by
  apply hexDigitsAux_pad k n n hk hn
  calc n < 16 ^ n := Nat.lt_pow_self (by norm_num) n
  _ ≤ 16 ^ (n + 1) := Nat.pow_le_pow_right (by norm_num) (Nat.le_succ n)

theorem hex_pair_byte (t j : Nat) :
    t / 16 ^ (2 * j + 1) % 16 * 16 + t / 16 ^ (2 * j) % 16 = t / 256 ^ j % 256 := by
  have h1 : t / 16 ^ (2 * j + 1) = t / 16 ^ (2 * j) / 16 := by
    rw [Nat.div_div_eq_div_mul, ← pow_succ]
  have h2 : (256 : Nat) ^ j = 16 ^ (2 * j) := by
    rw [show (256 : Nat) = 16 ^ 2 by norm_num, ← pow_mul]
  rw [h1, h2]
  omega

theorem range_map_getD (f : Nat → Nat) (n j : Nat) (h : j < n) :
    ((List.range n).map f).getD j 0 = f j := by
  simp [List.getD_eq_getElem?_getD, List.getElem?_map, List.getElem?_range h]

/-- C2: for a valid call (device id in range, 4 random bytes, timestamp
below 2^48), `getNonce` returns exactly 24 bytes laid out as the device id,
the 4 random bytes, the 48-bit big-endian millisecond timestamp in bytes
5 to 10, and zeros in bytes 11 to 23. -/
theorem getNonce_layout (d : Int) (rnd : List Nat) (time : Nat)
    (h0 : 0 ≤ d) (h1 : d ≤ 255) (h2 : rnd.length = 4) (h3 : time < 2 ^ 48) :
    getNonce d rnd time =
      .ok ([d.toNat] ++ rnd ++
        [time / 256 ^ 5 % 256, time / 256 ^ 4 % 256, time / 256 ^ 3 % 256,
         time / 256 ^ 2 % 256, time / 256 % 256, time % 256] ++
        List.replicate 13 0) ∧
    ([d.toNat] ++ rnd ++
        [time / 256 ^ 5 % 256, time / 256 ^ 4 % 256, time / 256 ^ 3 % 256,
         time / 256 ^ 2 % 256, time / 256 % 256, time % 256] ++
        List.replicate 13 0).length = 24 := by
  have hpow : (256 : Nat) ^ 6 = 281474976710656 := by norm_num
  have h48 : (2 : Nat) ^ 48 = 281474976710656 := by norm_num
  have h16 : (16 : Nat) ^ 12 = 281474976710656 := by norm_num
  constructor
  · simp only [getNonce]
    rw [if_neg (by omega), if_neg (by omega)]
    have hpad := hexDigits_pad 12 time (by norm_num) (by omega)
    rw [hpad]
    have hts : (List.range 6).map (fun i =>
          ((List.range 12).map (fun i => time / 16 ^ (12 - 1 - i) % 16)).getD (2 * i) 0 * 16 +
          ((List.range 12).map (fun i => time / 16 ^ (12 - 1 - i) % 16)).getD (2 * i + 1) 0)
        = (List.range 6).map (fun i => time / 256 ^ (5 - i) % 256) := by
      apply List.map_congr_left
      intro i hi
      have hik : i < 6 := List.mem_range.mp hi
      rw [range_map_getD _ _ _ (by omega), range_map_getD _ _ _ (by omega)]
      have e1 : 12 - 1 - 2 * i = 2 * (5 - i) + 1 := by omega
      have e2 : 12 - 1 - (2 * i + 1) = 2 * (5 - i) := by omega
      rw [e1, e2, hex_pair_byte]
    rw [hts]
    have hexp : (List.range 6).map (fun i => time / 256 ^ (5 - i) % 256) =
        [time / 256 ^ 5 % 256, time / 256 ^ 4 % 256, time / 256 ^ 3 % 256,
         time / 256 ^ 2 % 256, time / 256 % 256, time % 256] := by
      simp [List.range_succ]
    rw [hexp]
    rfl
  · simp [h2]

/-- C2 witness: the layout theorem instantiated at device id 3, random
bytes [1,2,3,4] and timestamp 255 ms. -/
theorem getNonce_layout_witness :
    (0 : Int) ≤ 3 ∧ (3 : Int) ≤ 255 ∧ ([1, 2, 3, 4] : List Nat).length = 4 ∧
    (255 : Nat) < 2 ^ 48 ∧
    (getNonce 3 [1, 2, 3, 4] 255 =
      .ok ([(3 : Int).toNat] ++ [1, 2, 3, 4] ++
        [255 / 256 ^ 5 % 256, 255 / 256 ^ 4 % 256, 255 / 256 ^ 3 % 256,
         255 / 256 ^ 2 % 256, 255 / 256 % 256, 255 % 256] ++
        List.replicate 13 0) ∧
    ([(3 : Int).toNat] ++ [1, 2, 3, 4] ++
        [255 / 256 ^ 5 % 256, 255 / 256 ^ 4 % 256, 255 / 256 ^ 3 % 256,
         255 / 256 ^ 2 % 256, 255 / 256 % 256, 255 % 256] ++
        List.replicate 13 0).length = 24) :=
  ⟨by decide, by decide, by decide, by decide,
   getNonce_layout 3 [1, 2, 3, 4] 255 (by decide) (by decide) (by decide) (by decide)⟩

/-- C4 counterexample: at exactly 2^48 milliseconds the source does not
raise (its check `time > Math.pow(256, 6)` is strict), and it returns a
nonce whose timestamp field is even garbled (the 13-digit hex string loses
its last digit); the claim demands a RangeError at every time at or above
2^48. -/
theorem getNonce_boundary_counterexample :
    getNonce 0 [0, 0, 0, 0] (256 ^ 6) =
      .ok ([0, 0, 0, 0, 0, 16] ++ List.replicate 18 0) ∧
    2 ^ 48 ≤ 256 ^ 6 := by
  constructor
  · rfl
  · decide

/-- C4 (amended): `getNonce` raises a RangeError exactly when the (integer)
device id is outside [0,255] or the clock value strictly exceeds 2^48; for
a device id in [0,255] and a clock value of at most 2^48 it returns a
nonce without error. -/
theorem getNonce_error_iff (d : Int) (rnd : List Nat) (time : Nat) :
    (getNonce d rnd time = .error .rangeError ↔ d < 0 ∨ 255 < d ∨ 2 ^ 48 < time) ∧
    ((∃ nonce, getNonce d rnd time = .ok nonce) ↔ 0 ≤ d ∧ d ≤ 255 ∧ time ≤ 2 ^ 48) := by
  have hpow : (256 : Nat) ^ 6 = 281474976710656 := by norm_num
  have h48 : (2 : Nat) ^ 48 = 281474976710656 := by norm_num
  unfold getNonce
  constructor <;> split_ifs with ha hb <;> simp <;> omega

/-- C9: `getHKDF` raises a RangeError exactly when `extractLen` is negative
or exceeds 255 * 64 = 16320; in particular `extractLen = 0` is accepted and
yields the empty output. -/
theorem getHKDF_error_iff (H : List Nat → List Nat) (ikm info : List Nat)
    (salt : Option (List Nat)) (len : Int) :
    (getHKDF H ikm info len salt = .error .rangeError ↔ len < 0 ∨ 16320 < len) ∧
    getHKDF H ikm info 0 salt = .ok [] := by
  constructor
  · unfold getHKDF
    split_ifs with h
    · norm_num [HASH_SIZE] at h
      simp
      omega
    · norm_num [HASH_SIZE] at h
      simp
      omega
  · rfl

/-- C3 counterexample: a 31-byte seed is not rejected. `deriveKeys`
performs no length check (the source checks only `instanceof Uint8Array`),
so with any primitive instantiation (constant stand-ins here) it succeeds
on a seed that is not 32 bytes long. -/
theorem deriveKeys_no_length_check :
    (List.replicate 31 (0 : Nat)).length ≠ 32 ∧
    (deriveKeys (fun _ => List.replicate 64 0) (fun s => (s, s))
      (List.replicate 31 0)).isOk = true := by
  constructor
  · decide
  · rfl

/-- C3 (amended): `deriveKeys` validates only that the seed is a byte
sequence (a `Uint8Array`), never its length: on every byte-sequence seed,
of any length, it succeeds and no InputTypeError is raised. -/
theorem deriveKeys_accepts_any_length (H : List Nat → List Nat)
    (kp : List Nat → List Nat × List Nat) (seed : List Nat) :
    (deriveKeys H kp seed).isOk = true := rfl

theorem xorPadKey_eq_specPad (p : Nat) (key : List Nat)
    (h : key.length ≤ BLOCK_SIZE) : xorPadKey p key = specPad p key := by
  have hlen1 : (xorPadKey p key).length = BLOCK_SIZE := by
    simp [xorPadKey]
    omega
  have hlen2 : (specPad p key).length = BLOCK_SIZE := by
    simp [specPad]
  apply List.ext_getElem (by rw [hlen1, hlen2])
  intro i hi1 hi2
  have hi : i < BLOCK_SIZE := by rwa [hlen1] at hi1
  simp only [specPad, List.getElem_map, List.getElem_range]
  simp only [xorPadKey]
  by_cases hik : i < key.length
  · rw [List.getElem_append_left (by simpa using hik)]
    rw [List.getElem_map, List.getD_eq_getElem key 0 hik]
  · push_neg at hik
    rw [List.getElem_append_right (by simpa using hik)]
    rw [List.getElem_replicate]
    rw [List.getD_eq_default key 0 hik]
    simp

/-- C7: the source's `hmac` is the standard HMAC over a 512-bit hash with
128-byte blocks: a key longer than 128 bytes is first replaced by its hash,
and the result is `H((key XOR 0x5c-pad) ++ H((key XOR 0x36-pad) ++
message))`, a 64-byte output (given that the hash primitive outputs 64
bytes). -/
theorem hmac_matches_spec (H : List Nat → List Nat) (message key : List Nat)
    (hlen : ∀ x, (H x).length = 64) :
    hmac H message key = hmacSpec H message key ∧
    (hmac H message key).length = 64 := by
  constructor
  · unfold hmac hmacSpec
    by_cases hk : key.length > BLOCK_SIZE
    · simp only [if_pos hk]
      rw [xorPadKey_eq_specPad _ _ (by rw [hlen]; norm_num [BLOCK_SIZE]),
          xorPadKey_eq_specPad _ _ (by rw [hlen]; norm_num [BLOCK_SIZE])]
    · simp only [if_neg hk]
      push_neg at hk
      rw [xorPadKey_eq_specPad _ _ hk, xorPadKey_eq_specPad _ _ hk]
  · unfold hmac
    apply hlen

/-- C7 witness: the spec equality and output length at a concrete hash
stand-in, message and key. -/
theorem hmac_matches_spec_witness :
    (∀ x : List Nat, ((fun _ => List.replicate 64 0) x : List Nat).length = 64) ∧
    (hmac (fun _ => List.replicate 64 0) [1, 2] [3] =
      hmacSpec (fun _ => List.replicate 64 0) [1, 2] [3] ∧
    (hmac (fun _ => List.replicate 64 0) [1, 2] [3]).length = 64) :=
  ⟨fun _ => rfl, hmac_matches_spec (fun _ => List.replicate 64 0) [1, 2] [3] (fun _ => rfl)⟩

theorem hkdfT_eq_specT (H : List Nat → List Nat) (info prk : List Nat) :
    ∀ n, hkdfT H info prk n = hkdfSpecT H info prk n := by
  intro n
  induction n with
  | zero => rfl
  | succ n ih => simp [hkdfT, hkdfSpecT, ih]

theorem hkdfOkm_eq_flatten (H : List Nat → List Nat) (info prk : List Nat) :
    ∀ n, hkdfOkm H info prk n =
      ((List.range n).map (fun i => hkdfT H info prk (i + 1))).flatten := by
  intro n
  induction n with
  | zero => rfl
  | succ n ih =>
    rw [hkdfOkm, ih, List.range_succ, List.map_append, List.flatten_append]
    simp

theorem getHKDF_valid_eq (H : List Nat → List Nat) (ikm info salt : List Nat)
    (len : Int) (h0 : 0 ≤ len) (h1 : len ≤ 16320) :
    getHKDF H ikm info len (some salt) = .ok (hkdfSpec H ikm info salt len.toNat) := by
  unfold getHKDF hkdfSpec
  rw [if_neg (by norm_num [HASH_SIZE]; omega)]
  simp only [Option.getD_some, hkdfOkm_eq_flatten, hkdfT_eq_specT]

/-- C8: for every valid extract length, `getHKDF` computes exactly the
spec's extract-then-expand: `PRK` is HMAC keyed by the salt over the input
keying material, `T[0]` is empty, `T[i] = HMAC(T[i-1] ++ info ++ [i],
PRK)`, and the output is the concatenation of `T[1..ceil(len/64)]`
truncated to `len` bytes; when no salt is supplied a zero-filled 64-byte
salt is used. -/
theorem getHKDF_matches_spec (H : List Nat → List Nat) (ikm info salt : List Nat)
    (len : Int) (h0 : 0 ≤ len) (h1 : len ≤ 16320) :
    getHKDF H ikm info len (some salt) = .ok (hkdfSpec H ikm info salt len.toNat) ∧
    getHKDF H ikm info len none =
      getHKDF H ikm info len (some (List.replicate 64 0)) :=
  ⟨getHKDF_valid_eq H ikm info salt len h0 h1, rfl⟩

/-- C8 witness: the spec equality at a concrete hash stand-in, empty ikm
and info, empty salt and extract length 64. -/
theorem getHKDF_matches_spec_witness :
    (0 : Int) ≤ 64 ∧ (64 : Int) ≤ 16320 ∧
    (getHKDF (fun _ => List.replicate 64 0) [] [] 64 (some []) =
        .ok (hkdfSpec (fun _ => List.replicate 64 0) [] [] [] (64 : Int).toNat) ∧
      getHKDF (fun _ => List.replicate 64 0) [] [] 64 none =
        getHKDF (fun _ => List.replicate 64 0) [] [] 64 (some (List.replicate 64 0))) :=
  ⟨by decide, by decide,
   getHKDF_matches_spec (fun _ => List.replicate 64 0) [] [] [] 64 (by decide) (by decide)⟩

theorem deriveKeys_eq_spec (H : List Nat → List Nat)
    (kp : List Nat → List Nat × List Nat) (seed : List Nat) :
    deriveKeys H kp seed = .ok
      { publicKey := (kp (hkdfSpec H seed [0] HKDF_SALT 32)).1
        secretKey := (kp (hkdfSpec H seed [0] HKDF_SALT 32)).2
        fingerprint := ((kp (hkdfSpec H seed [0] HKDF_SALT 32)).1.map byteToHex).flatten
        secretboxKey := hkdfSpec H seed [1] HKDF_SALT 32 } := by
  have e0 := getHKDF_valid_eq H seed [0] HKDF_SALT ((crypto_sign_SEEDBYTES : Nat) : Int)
    (Int.natCast_nonneg _) (by norm_num [crypto_sign_SEEDBYTES])
  have e1 := getHKDF_valid_eq H seed [1] HKDF_SALT ((secretbox_keyLength : Nat) : Int)
    (Int.natCast_nonneg _) (by norm_num [secretbox_keyLength])
  unfold deriveKeys
  rw [e0, e1]
  rfl

/-- C1: for every 32-byte seed, `deriveKeys` equals the reference
derivation: the signing keypair is derived from hkdf(seed, info=[0],
extractLen=32, salt=PROTOCOL_SALT), the secretbox key equals hkdf(seed,
info=[1], extractLen=32, salt=PROTOCOL_SALT) with the same fixed 64-byte
protocol salt, and the result is a pure function of the seed bytes alone
(every field is determined by the equation from the seed). -/
theorem deriveKeys_reference (H : List Nat → List Nat)
    (kp : List Nat → List Nat × List Nat) (seed : List Nat)
    (hseed : seed.length = 32) :
    deriveKeys H kp seed = .ok
      { publicKey := (kp (hkdfSpec H seed [0] HKDF_SALT 32)).1
        secretKey := (kp (hkdfSpec H seed [0] HKDF_SALT 32)).2
        fingerprint := ((kp (hkdfSpec H seed [0] HKDF_SALT 32)).1.map byteToHex).flatten
        secretboxKey := hkdfSpec H seed [1] HKDF_SALT 32 } ∧
    HKDF_SALT.length = 64 :=
  ⟨deriveKeys_eq_spec H kp seed, by decide⟩

/-- C1 witness: the reference equality at a concrete hash and keypair
stand-in and the all-zero 32-byte seed. -/
theorem deriveKeys_reference_witness :
    (List.replicate 32 (0 : Nat)).length = 32 ∧
    (deriveKeys (fun _ => List.replicate 64 0) (fun s => (s, s)) (List.replicate 32 0) = .ok
      { publicKey :=
          hkdfSpec (fun _ => List.replicate 64 0) (List.replicate 32 0) [0] HKDF_SALT 32
        secretKey :=
          hkdfSpec (fun _ => List.replicate 64 0) (List.replicate 32 0) [0] HKDF_SALT 32
        fingerprint :=
          ((hkdfSpec (fun _ => List.replicate 64 0) (List.replicate 32 0) [0]
            HKDF_SALT 32).map byteToHex).flatten
        secretboxKey :=
          hkdfSpec (fun _ => List.replicate 64 0) (List.replicate 32 0) [1] HKDF_SALT 32 } ∧
    HKDF_SALT.length = 64) :=
  ⟨by decide,
   deriveKeys_reference (fun _ => List.replicate 64 0) (fun s => (s, s))
     (List.replicate 32 0) (by decide)⟩

theorem hexCharVal_hexDigitChar : ∀ d : Nat, d < 16 →
    hexCharVal (hexDigitChar d) = some d := by decide

theorem hexDigitChar_lower : ∀ d : Nat, d < 16 →
    (hexCharVal (hexDigitChar d)).isSome = true := by decide

theorem hexDecode_encode (bytes : List Nat) (h : ∀ x ∈ bytes, x < 256) :
    hexDecode (bytes.map byteToHex).flatten = some bytes := by
  induction bytes with
  | nil => rfl
  | cons b bs ih =>
    have hb : b < 256 := h b (List.mem_cons_self b bs)
    have hrest := ih (fun x hx => h x (List.mem_cons_of_mem b hx))
    have h1 : hexCharVal (hexDigitChar (b / 16 % 16)) = some (b / 16 % 16) :=
      hexCharVal_hexDigitChar _ (by omega)
    have h2 : hexCharVal (hexDigitChar (b % 16)) = some (b % 16) :=
      hexCharVal_hexDigitChar _ (by omega)
    simp [hexDecode, byteToHex, h1, h2, hrest]
    omega

theorem flatten_byteToHex_length (bytes : List Nat) :
    ((bytes.map byteToHex).flatten).length = 2 * bytes.length := by
  induction bytes with
  | nil => rfl
  | cons b bs ih =>
    simp only [List.map_cons, List.flatten_cons, List.length_append, ih,
      byteToHex, List.length_cons, List.length_nil, List.length_singleton]
    omega

theorem flatten_byteToHex_mem (bytes : List Nat) (c : Char)
    (hc : c ∈ (bytes.map byteToHex).flatten) : (hexCharVal c).isSome = true := by
  rw [List.mem_flatten] at hc
  obtain ⟨l, hl, hcl⟩ := hc
  obtain ⟨b, _, rfl⟩ := List.mem_map.mp hl
  simp only [byteToHex, List.mem_cons, List.not_mem_nil, or_false] at hcl
  rcases hcl with rfl | rfl
  · exact hexDigitChar_lower _ (Nat.mod_lt _ (by norm_num))
  · exact hexDigitChar_lower _ (Nat.mod_lt _ (by norm_num))

/-- C10: whenever `deriveKeys` returns a bundle whose public key is 32
bytes (as the external Ed25519 primitive guarantees), the fingerprint is
exactly 64 lowercase hexadecimal characters (each accepted by the
lowercase-hex decoder `hexCharVal`), two zero-padded digits per public-key
byte, and decoding it yields the 32-byte public key exactly. -/
theorem fingerprint_hex (H : List Nat → List Nat)
    (kp : List Nat → List Nat × List Nat) (seed : List Nat)
    (b : DerivedKeyBundle) (hb : deriveKeys H kp seed = .ok b)
    (hlen : b.publicKey.length = 32) (hbytes : ∀ x ∈ b.publicKey, x < 256) :
    b.fingerprint.length = 64 ∧
    (∀ c ∈ b.fingerprint, (hexCharVal c).isSome = true) ∧
    hexDecode b.fingerprint = some b.publicKey := by
  rw [deriveKeys_eq_spec H kp seed] at hb
  injection hb with hb2
  subst hb2
  refine ⟨?_, ?_, ?_⟩
  · rw [flatten_byteToHex_length]
    simp only [DerivedKeyBundle.publicKey] at hlen
    omega
  · intro c hc
    exact flatten_byteToHex_mem _ c hc
  · exact hexDecode_encode _ hbytes

/-- C10 witness: the fingerprint properties at a concrete hash and keypair
stand-in and the all-zero 32-byte seed, whose bundle has an all-zero
32-byte public key and a fingerprint of 64 zero characters. -/
theorem fingerprint_hex_witness :
    (List.replicate 64 '0').length = 64 ∧
    (∀ c ∈ List.replicate 64 '0', (hexCharVal c).isSome = true) ∧
    hexDecode (List.replicate 64 '0') = some (List.replicate 32 0) :=
  fingerprint_hex (fun _ => List.replicate 64 0) (fun s => (s, s))
    (List.replicate 32 0)
    ⟨List.replicate 32 0, List.replicate 32 0, List.replicate 64 '0',
     List.replicate 32 0⟩
    (by rfl) (by decide) (by decide)

theorem getNonce_ok (d : Int) (rnd : List Nat) (time : Nat)
    (h0 : 0 ≤ d) (h1 : d ≤ 255) (h3 : time ≤ 256 ^ 6) :
    ∃ ts, getNonce d rnd time = .ok ([d.toNat] ++ rnd ++ ts ++ List.replicate 13 0) ∧
      ts.length = 6 := by
  unfold getNonce
  rw [if_neg (by omega), if_neg (not_lt.mpr h3)]
  exact ⟨_, rfl, by simp⟩

/-- C5: round trip: for every message (including the empty one), every
32-byte secretbox key and every valid device id (with any 4 random bytes
and any in-range clock value), decrypting the ciphertext of the returned
envelope with its nonce and the same key returns exactly the message —
given that the external secretbox primitive satisfies its contract (its
open operation inverts it for 24-byte nonces and 32-byte keys). -/
theorem encrypt_decrypt_roundtrip (sb : List Nat → List Nat → List Nat → List Nat)
    (opn : List Nat → List Nat → List Nat → Option (List Nat))
    (m key : List Nat) (d : Int) (rnd : List Nat) (time : Nat)
    (hopen : ∀ mm nn kk, nn.length = 24 → kk.length = 32 →
      opn (sb mm nn kk) nn kk = some mm)
    (h0 : 0 ≤ d) (h1 : d ≤ 255) (h2 : rnd.length = 4) (h3 : time ≤ 256 ^ 6)
    (hkey : key.length = 32) :
    ∃ env, encrypt sb m key d rnd time = .ok env ∧
      decrypt opn env.ciphertext env.nonce key = some m := by
  obtain ⟨ts, hn, hts⟩ := getNonce_ok d rnd time h0 h1 h3
  refine ⟨⟨[d.toNat] ++ rnd ++ ts ++ List.replicate 13 0,
    sb m ([d.toNat] ++ rnd ++ ts ++ List.replicate 13 0) key⟩, ?_, ?_⟩
  · unfold encrypt
    rw [hn]
    rfl
  · exact hopen m _ key (by simp [hts, h2]) hkey

/-- C5 witness: the round trip at a concrete secretbox stand-in, message
[1,2,3], the all-zero 32-byte key, device id 0 and clock value 0. -/
theorem encrypt_decrypt_roundtrip_witness :
    ∃ env, encrypt (fun mm _ _ => mm) [1, 2, 3] (List.replicate 32 0) 0 [0, 0, 0, 0] 0 =
        .ok env ∧
      decrypt (fun c _ _ => some c) env.ciphertext env.nonce (List.replicate 32 0) =
        some [1, 2, 3] :=
  encrypt_decrypt_roundtrip (fun mm _ _ => mm) (fun c _ _ => some c)
    [1, 2, 3] (List.replicate 32 0) 0 [0, 0, 0, 0] 0
    (fun _ _ _ _ _ => rfl) (by decide) (by decide) (by decide)
    (Nat.zero_le _) (by decide)

/-- C6: `decrypt` is a total function into an optional result, so an
authentication failure cannot raise: on honestly produced ciphertext it
returns the original plaintext bytes exactly, whenever the underlying
primitive reports failure `decrypt` returns the distinguished sentinel
`none` (never a partial result), and every outcome is either the sentinel
or a plaintext, so callers must branch on it explicitly. -/
theorem decrypt_sentinel (sb : List Nat → List Nat → List Nat → List Nat)
    (opn : List Nat → List Nat → List Nat → Option (List Nat))
    (hopen : ∀ m n k, n.length = 24 → k.length = 32 →
      opn (sb m n k) n k = some m) :
    (∀ m n k, n.length = 24 → k.length = 32 →
      decrypt opn (sb m n k) n k = some m) ∧
    (∀ c n k, opn c n k = none → decrypt opn c n k = none) ∧
    (∀ c n k, decrypt opn c n k = none ∨ ∃ p, decrypt opn c n k = some p) := by
  refine ⟨hopen, fun c n k h => h, fun c n k => ?_⟩
  cases hh : opn c n k with
  | none => exact Or.inl hh
  | some p => exact Or.inr ⟨p, hh⟩

/-- C6 witness: the sentinel behaviour at a concrete secretbox stand-in. -/
theorem decrypt_sentinel_witness :
    (∀ m n k : List Nat, n.length = 24 → k.length = 32 →
      decrypt (fun c _ _ => some c) ((fun mm _ _ => mm) m n k) n k = some m) ∧
    (∀ c n k : List Nat, (fun c _ _ => some c : List Nat → List Nat → List Nat → Option (List Nat)) c n k = none →
      decrypt (fun c _ _ => some c) c n k = none) ∧
    (∀ c n k : List Nat, decrypt (fun c _ _ => some c) c n k = none ∨
      ∃ p, decrypt (fun c _ _ => some c) c n k = some p) :=
  decrypt_sentinel (fun mm _ _ => mm) (fun c _ _ => some c) (fun _ _ _ _ _ => rfl)
